import Mathlib

/-!
A verification development for the crossword CSP solver in `generate.py`
(class `CrosswordCreator`).  The solver's state is shallowly embedded:

* the mutable dict `self.domains` becomes an association list `Domains V`
  (Python dicts preserve insertion order and have unique keys; updates
  rewrite the first matching entry);
* Python sets of words are represented by lists; set iteration order is
  arbitrary in Python (string hashing is salted per process), so the list
  order of a concrete instance stands for one realizable iteration order;
* the recursion of `backtrack` is made structural with a fuel argument;
  `solve` passes fuel `d.length + 1`, which exceeds the maximal recursion
  depth (each recursive call inserts one more key into the assignment, and
  the recursion stops once the assignment has `d.length` keys), so the
  fuel-0 branch is unreachable for `solve`;
* the `while` loop of `ac3` is made structural by counting revisions
  (`gas`): every revision removes at least one word from some domain, so
  `sizeD d` bounds the number of revisions and the gas-0 fallback branch
  is unreachable (this is proved in `ac3Chunk_inr_sizeD` below and used
  in the theorems about `ac3`);
* Python's `word[i]` is totalized as `charAt` (out-of-range reads a blank;
  all indexing in the claims and instances below is in range);
* Python's stable `sorted` is rendered as `List.insertionSort`, which is
  also stable, hence produces the identical list for the same key order.

The puzzle model (`crossword.py`, the external collaborator of the spec)
is not part of the sources; the structure `CW` below models exactly the
interface the spec ascribes to it (slot set, per-slot length, overlap
function, neighbor relation, word pool).
-/

namespace CrosswordCSP

/-- A word: an immutable sequence of characters (Python `str`). -/
abbrev Word := List Char

/-- Python `w[i]`; out-of-range indices read a blank character.  In the
source every index used comes from an overlap of the puzzle model and is
in range for node-consistent words. -/
def charAt (w : Word) (i : Nat) : Char := w.getD i ' '

/-- Modelled from the spec: the external Puzzle Model (`crossword.py`,
not among the sources).  Per spec section 6 it exposes the set of slots,
a per-slot length, the word pool and a total overlap function; the
neighbor relation is derived from the overlap function (spec section 3:
a slot's neighbors are the slots with which it has a defined overlap). -/
structure CW (V : Type) where
  vars : List V  -- the slot set (named `variables` in the source; reserved in Lean)
  words : List Word
  length : V → Nat
  overlaps : V → V → Option (Nat × Nat)

variable {V : Type} [DecidableEq V]

/-- Modelled from the spec: `neighbors(var)` of the Puzzle Model — the
slots with a defined overlap with `var`. -/
def neighbors (cw : CW V) (x : V) : List V :=
  cw.vars.filter (fun y => decide (y ≠ x) && (cw.overlaps y x).isSome)

/-- The domain store `self.domains`: an insertion-ordered association
list from slots to their current candidate word lists. -/
abbrev Domains (V : Type) := List (V × List Word)

/-- `self.domains.get(x)` (reading a missing key yields the empty list;
in the source a missing key never occurs on executed paths). -/
def lookupD (d : Domains V) (x : V) : List Word :=
  match d.find? (fun p => decide (p.1 = x)) with
  | some p => p.2
  | none => []

/-- `self.domains[x] = ws`: rewrite the (unique) entry of key `x`.
A missing key is left missing. -/
def setD : Domains V → V → List Word → Domains V
  | [], _, _ => []
  | p :: rest, x, ws => if p.1 = x then (x, ws) :: rest else p :: setD rest x ws

/-- Total number of stored words; the termination measure of `ac3`. -/
def sizeD (d : Domains V) : Nat := (d.map (fun p => p.2.length)).sum

/-- A (partial) assignment: an insertion-ordered association list from
slots to words (Python dict `assignment`). -/
abbrev Assign (V : Type) := List (V × Word)

/-- `x in assignment`. -/
def hasKey (a : Assign V) (x : V) : Bool := a.any (fun p => decide (p.1 = x))

/-- `assignment[x]`. -/
def lookupA (a : Assign V) (x : V) : Option Word :=
  match a.find? (fun p => decide (p.1 = x)) with
  | some p => some p.2
  | none => none

/-- `assignment[x] = w` for a key `x` not yet present (the only way the
source inserts): appends, preserving dict insertion order. -/
def insertA (a : Assign V) (x : V) (w : Word) : Assign V := a ++ [(x, w)]

/-- `CrosswordCreator.__init__`: every slot's domain starts as the full
word pool. -/
def initialDomains (cw : CW V) : Domains V := cw.vars.map (fun v => (v, cw.words))

/-- `enforce_node_consistency`: keep in each slot's domain exactly the
words whose length matches the slot's length. -/
def enforce_node_consistency (cw : CW V) (d : Domains V) : Domains V :=
  d.map (fun p => (p.1, p.2.filter (fun w => decide (w.length = cw.length p.1))))

/-- `revise(x, y)`: with no overlap, nothing happens and `False` is
returned.  With overlap `(xc, yc)`, the domain of `x` is replaced by the
words having a distinct matching partner in the domain of `y`; the flag
compares the sizes before and after. -/
def revise (cw : CW V) (x y : V) (d : Domains V) : Bool × Domains V :=
  match cw.overlaps x y with
  | none => (false, d)
  | some (xc, yc) =>
    let xWords := lookupD d x
    let yWords := lookupD d y
    let newWords := xWords.filter
      (fun wx => yWords.any (fun wy => decide (wx ≠ wy) && decide (charAt wx xc = charAt wy yc)))
    (decide (newWords.length < xWords.length), setD d x newWords)

/-- The arcs `(z, x)` for `z` a neighbor of `x` other than `y`, pushed
onto the worklist after a revision of `x` against `y`; reversed because
the worklist stack is represented with its top at the head while the
deque appends at its right end. -/
def pushArcs (cw : CW V) (x y : V) (rest : List (V × V)) : List (V × V) :=
  (((neighbors cw x).filter (fun z => decide (z ≠ y))).map (fun z => (z, x))).reverse ++ rest

/-- One pass of the `ac3` worklist loop up to (and including) the first
revision: `.inl` is a final answer (worklist exhausted, or a domain was
just emptied), `.inr` is the state right after a non-emptying revision. -/
def ac3Chunk (cw : CW V) : List (V × V) → Domains V → (Bool × Domains V) ⊕ (List (V × V) × Domains V)
  | [], d => .inl (true, d)
  | (x, y) :: rest, d =>
    let r := revise cw x y d
    if r.1 then
      if lookupD r.2 x = [] then .inl (false, r.2)
      else .inr (pushArcs cw x y rest, r.2)
    else ac3Chunk cw rest r.2

/-- The `ac3` worklist loop, structurally recursive on the number of
revisions still possible.  The gas-0 fallback is unreachable when
`sizeD d ≤ gas` (each `.inr` step strictly decreases `sizeD`). -/
def ac3Gas (cw : CW V) : Nat → List (V × V) → Domains V → Bool × Domains V
  | 0, stack, d =>
    (match ac3Chunk cw stack d with
     | .inl res => res
     | .inr (_, d') => (false, d'))
  | gas + 1, stack, d =>
    (match ac3Chunk cw stack d with
     | .inl res => res
     | .inr (st', d') => ac3Gas cw gas st' d')

/-- The initial worklist of `ac3`: by default every `(x, y)` with `x` a
key of the domain store and `y` a neighbor of `x`; otherwise the given
arcs.  Reversed into a head-is-top stack (the deque pops at its right). -/
def initStack (cw : CW V) (arcs : Option (List (V × V))) (d : Domains V) : List (V × V) :=
  match arcs with
  | none => ((d.map Prod.fst).flatMap (fun x => (neighbors cw x).map (fun y => (x, y)))).reverse
  | some l => l.reverse

/-- `ac3(arcs)`: run the worklist loop; returns the success flag and the
pruned domain store. -/
def ac3 (cw : CW V) (arcs : Option (List (V × V))) (d : Domains V) : Bool × Domains V :=
  ac3Gas cw (sizeD d) (initStack cw arcs d) d

/-- The canonical run of the worklist loop from a given state, with the
gas the loop can actually consume. -/
def ac3Run (cw : CW V) (stack : List (V × V)) (d : Domains V) : Bool × Domains V :=
  ac3Gas cw (sizeD d) stack d

/-- `assignment_complete`. -/
def assignment_complete (a : Assign V) (d : Domains V) : Bool :=
  decide (a.length = d.length)

/-- The pure comparisons of `consistent`: every assigned word has its
slot's length, and every ordered pair of distinct assigned slots with a
defined overlap agrees on the shared character. -/
def consistentCheck (cw : CW V) (a : Assign V) : Bool :=
  (a.all (fun p => decide (cw.length p.1 = p.2.length))) &&
  (a.all (fun p1 => a.all (fun p2 =>
    if p1.1 = p2.1 then true
    else
      match cw.overlaps p1.1 p2.1 with
      | none => true
      | some (i, j) => decide (charAt p1.2 i = charAt p2.2 j))))

/-- `consistent(assignment)`: first re-runs the full default `ac3`
(mutating the domain store), then performs the pure comparisons. -/
def consistent (cw : CW V) (a : Assign V) (d : Domains V) : Bool × Domains V :=
  let r := ac3 cw none d
  (consistentCheck cw a, r.2)

/-- The score of `order_domain_values`: over all unassigned neighbors
`n` of `var`, the number of words in `domain(n)` whose overlap character
matches `w`'s. -/
def odvScore (cw : CW V) (d : Domains V) (a : Assign V) (var : V) (w : Word) : Nat :=
  (((neighbors cw var).filter (fun v => !hasKey a v)).map (fun nb =>
    match cw.overlaps var nb with
    | none => 0
    | some (c0, c1) => ((lookupD d nb).filter (fun nv => decide (charAt w c0 = charAt nv c1))).length)).sum

/-- `order_domain_values(var, assignment)`: the domain of `var`, stably
sorted by ascending score (Python's `sorted` is stable, and so is
`insertionSort`, so the outputs coincide). -/
def order_domain_values (cw : CW V) (d : Domains V) (a : Assign V) (var : V) : List Word :=
  (lookupD d var).insertionSort (fun u v => odvScore cw d a var u ≤ odvScore cw d a var v)

/-- The neighbor count used by the degree tie-break.  The source reads
`neighbors(selected)` where `selected` can still be `None` (it then
raises); that path needs a domain of exactly 10000 words and is dead in
every statement below, totalized here as degree 0. -/
def degOf (cw : CW V) : Option V → Nat
  | none => 0
  | some v => (neighbors cw v).length

/-- One step of the `select_unassigned_variable` scan: a strictly
smaller domain wins; an equal-sized domain wins on strictly higher
neighbor count. -/
def selStep (cw : CW V) (st : Option V × Nat) (p : V × List Word) : Option V × Nat :=
  if p.2.length < st.2 then (some p.1, p.2.length)
  else if st.2 = p.2.length then
    (if degOf cw (some p.1) > degOf cw st.1 then some p.1 else st.1, st.2)
  else st

/-- `select_unassigned_variable`: single pass over the unassigned slots
with the sentinel 10000, keeping the slot with the fewest domain values
and breaking ties by higher neighbor count. -/
def select_unassigned_variable (cw : CW V) (d : Domains V) (a : Assign V) : Option V :=
  ((d.filter (fun p => !hasKey a p.1)).foldl (selStep cw) (none, 10000)).1

/-- The candidate loop of `backtrack`: for each value of the (fixed)
ordered list, first call `consistent` (result discarded, domain store
mutated), re-test membership in the freshly re-derived ordered list,
commit (insert into the assignment, shrink the domain to a singleton),
recurse; on failure revert only the assignment entry and continue. -/
def tryValues (btrec : Assign V → Domains V → Option (Assign V) × Domains V)
    (cw : CW V) (var : V) (a : Assign V) : List Word → Domains V → Option (Assign V) × Domains V
  | [], d => (none, d)
  | w :: rest, d =>
    let d1 := (consistent cw a d).2
    if w ∈ order_domain_values cw d1 a var then
      match btrec (insertA a var w) (setD d1 var [w]) with
      | (some res, d2) => (some res, d2)
      | (none, d2) => tryValues btrec cw var a rest d2
    else tryValues btrec cw var a rest d1

/-- `backtrack(assignment)`, with fuel for the recursion depth (`solve`
supplies more fuel than the depth can reach).  A `none` from the slot
selection models the source raising on the dead sentinel path. -/
def backtrack (cw : CW V) : Nat → Assign V → Domains V → Option (Assign V) × Domains V
  | 0, _, d => (none, d)
  | fuel + 1, a, d =>
    if assignment_complete a d then (some a, d)
    else
      match select_unassigned_variable cw d a with
      | none => (none, d)
      | some var => tryValues (backtrack cw fuel) cw var a (order_domain_values cw d a var) d

/-- `solve()`: node consistency, one `ac3` (result discarded), then
backtracking search from the empty assignment. -/
def solve (cw : CW V) : Option (Assign V) :=
  let d0 := initialDomains cw
  let d1 := enforce_node_consistency cw d0
  let d2 := (ac3 cw none d1).2
  (backtrack cw (d2.length + 1) [] d2).1

/-- All complete assignments choosing, for each slot in order, a word of
the slot's length from the pool (used to state solution uniqueness). -/
def candidates (cw : CW V) : List (Assign V) :=
  cw.vars.foldr
    (fun v acc =>
      (cw.words.filter (fun w => decide (w.length = cw.length v))).flatMap
        (fun w => acc.map (fun a => (v, w) :: a)))
    [[]]

/-- The overlap agreement required of a solution (spec section 3). -/
def okOverlaps (cw : CW V) (a : Assign V) : Bool :=
  a.all (fun p1 => a.all (fun p2 =>
    if p1.1 = p2.1 then true
    else
      match cw.overlaps p1.1 p2.1 with
      | none => true
      | some (i, j) => decide (charAt p1.2 i = charAt p2.2 j)))

/-- The solutions of a puzzle: length-respecting complete assignments
whose crossing slots agree on the shared characters. -/
def solutions (cw : CW V) : List (Assign V) :=
  (candidates cw).filter (okOverlaps cw)


/-- Puzzle A, from the grid with rows `...`, `..#`, `..#`: slots
0 = row 0 across (length 3), 1 = row 1 across (length 2),
2 = row 2 across (length 2), 3 = column 0 down (length 3),
4 = column 1 down (length 3).  The slot order and word order fix one
realizable iteration order of the Python sets. -/
def cwA : CW (Fin 5) where
  vars := [2, 4, 3, 1, 0]
  words := [['b','a','b'], ['a','b'], ['b','b','b'], ['a','a'], ['b','a'],
            ['a','b','a'], ['a','b','b']]
  length := fun v =>
    match v.val with
    | 0 => 3 | 1 => 2 | 2 => 2 | _ => 3
  overlaps := fun x y =>
    match x.val, y.val with
    | 0, 3 => some (0, 0) | 0, 4 => some (1, 0)
    | 1, 3 => some (0, 1) | 1, 4 => some (1, 1)
    | 2, 3 => some (0, 2) | 2, 4 => some (1, 2)
    | 3, 0 => some (0, 0) | 3, 1 => some (1, 0) | 3, 2 => some (2, 0)
    | 4, 0 => some (0, 1) | 4, 1 => some (1, 1) | 4, 2 => some (2, 1)
    | _, _ => none

/-- Puzzle B, from the grid with rows `...#`, `#..#`, `#..#`: slots
0 = row 0 across (length 3), 1 = row 1 across (length 2),
2 = row 2 across (length 2), 3 = column 1 down (length 3),
4 = column 2 down (length 3). -/
def cwB : CW (Fin 5) where
  vars := [0, 1, 2, 3, 4]
  words := [['c','b','b'], ['b','a','a'], ['a','c'], ['a','b'],
            ['b','c','c'], ['b','c']]
  length := fun v =>
    match v.val with
    | 0 => 3 | 1 => 2 | 2 => 2 | _ => 3
  overlaps := fun x y =>
    match x.val, y.val with
    | 0, 3 => some (1, 0) | 0, 4 => some (2, 0)
    | 1, 3 => some (0, 1) | 1, 4 => some (1, 1)
    | 2, 3 => some (0, 2) | 2, 4 => some (1, 2)
    | 3, 0 => some (0, 1) | 3, 1 => some (1, 0) | 3, 2 => some (2, 0)
    | 4, 0 => some (0, 2) | 4, 1 => some (1, 1) | 4, 2 => some (2, 1)
    | _, _ => none

/-- Puzzle C: the same grid as puzzle B with another slot order and word
pool. -/
def cwC : CW (Fin 5) where
  vars := [2, 0, 4, 3, 1]
  words := [['a','b'], ['b','a'], ['a','b','b'], ['b','b'], ['b','a','a']]
  length := cwB.length
  overlaps := cwB.overlaps

/-- The domain store of puzzle C at the start of the top-level
`backtrack` call of `solve` (after node consistency and the first
`ac3`). -/
def dC : Domains (Fin 5) :=
  (ac3 cwC none (enforce_node_consistency cwC (initialDomains cwC))).2

/-- The revise filter predicate: `wx` has a distinct partner in
`yWords` matching at the overlap indices. -/
def hasPartner (yWords : List Word) (xc yc : Nat) (wx : Word) : Bool :=
  yWords.any (fun wy => decide (wx ≠ wy) && decide (charAt wx xc = charAt wy yc))

/-- Arc consistency of `x` toward `y` at overlap indices `(i, j)`:
every remaining word of `x` has a distinct matching partner in `y`. -/
def Supported (d : Domains V) (x y : V) (i j : Nat) : Prop :=
  ∀ w ∈ lookupD d x, ∃ w', w' ∈ lookupD d y ∧ w ≠ w' ∧ charAt w i = charAt w' j

/-- The node-consistency invariant: every stored word has its slot's
length. -/
def LenOK (cw : CW V) (d : Domains V) : Prop :=
  ∀ v w, w ∈ lookupD d v → w.length = cw.length v

/-- The small-step reachability relation of the `ac3` worklist loop:
`Reaches cw s d s' d'` holds when the loop started at worklist `s` and
store `d` passes through worklist `s'` and store `d'`.  A step pops the
top arc, revises it, and either continues with the rest (no revision) or
pushes the re-enqueued arcs (revision that left the domain nonempty);
the two terminal situations (exhausted worklist, emptied domain) have no
step. -/
inductive Reaches (cw : CW V) : List (V × V) → Domains V → List (V × V) → Domains V → Prop where
  | refl (s : List (V × V)) (d : Domains V) : Reaches cw s d s d
  | norev {x y : V} {rest s' : List (V × V)} {d d' : Domains V}
      (h : (revise cw x y d).1 = false)
      (next : Reaches cw rest (revise cw x y d).2 s' d') :
      Reaches cw ((x, y) :: rest) d s' d'
  | rev {x y : V} {rest s' : List (V × V)} {d d' : Domains V}
      (h : (revise cw x y d).1 = true)
      (hne : lookupD (revise cw x y d).2 x ≠ [])
      (next : Reaches cw (pushArcs cw x y rest) (revise cw x y d).2 s' d') :
      Reaches cw ((x, y) :: rest) d s' d'

/-- The candidate loop of the `backtrack` variant in which the
`consistent` call is replaced by a bare `ac3` call (only the propagation
side effect is kept; the discarded verdict is not computed). -/
def tryValuesAlt (btrec : Assign V → Domains V → Option (Assign V) × Domains V)
    (cw : CW V) (var : V) (a : Assign V) : List Word → Domains V → Option (Assign V) × Domains V
  | [], d => (none, d)
  | w :: rest, d =>
    let d1 := (ac3 cw none d).2
    if w ∈ order_domain_values cw d1 a var then
      match btrec (insertA a var w) (setD d1 var [w]) with
      | (some res, d2) => (some res, d2)
      | (none, d2) => tryValuesAlt btrec cw var a rest d2
    else tryValuesAlt btrec cw var a rest d1

/-- The `backtrack` variant calling bare `ac3` where `backtrack` calls
`consistent`. -/
def backtrackAlt (cw : CW V) : Nat → Assign V → Domains V → Option (Assign V) × Domains V
  | 0, _, d => (none, d)
  | fuel + 1, a, d =>
    if assignment_complete a d then (some a, d)
    else
      match select_unassigned_variable cw d a with
      | none => (none, d)
      | some var => tryValuesAlt (backtrackAlt cw fuel) cw var a (order_domain_values cw d a var) d

/-- The decimal-digit characters, used to build many distinct words. -/
def digitChar (k : Nat) : Char := Char.ofNat (48 + k % 10)

/-- The 5-character decimal rendering of `n < 100000`; distinct `n` give
distinct words. -/
def numWord (n : Nat) : Word :=
  [digitChar (n / 10000), digitChar (n / 1000), digitChar (n / 100),
   digitChar (n / 10), digitChar n]

/-- A pool of 10001 distinct words of length 5. -/
def bigPool : List Word := (List.range 10001).map numWord

/-- A puzzle with one isolated slot of length 5 and 10001 candidate
words. -/
def cwBig : CW Nat where
  vars := [0]
  words := bigPool
  length := fun _ => 5
  overlaps := fun _ _ => none



/-- The domain store of puzzle B right after node consistency. -/
def dB : Domains (Fin 5) := enforce_node_consistency cwB (initialDomains cwB)

end CrosswordCSP

set_option maxRecDepth 8000

namespace CrosswordCSP

variable {V : Type} [DecidableEq V]

theorem lookupD_cons (p : V × List Word) (d : Domains V) (x : V) :
    lookupD (p :: d) x = if p.1 = x then p.2 else lookupD d x := by
  by_cases h : p.1 = x <;> simp [lookupD, List.find?_cons, h]

theorem lookupD_eq_nil_of_not_mem {d : Domains V} {x : V}
    (h : x ∉ d.map Prod.fst) : lookupD d x = [] := by
  induction d with
  | nil => rfl
  | cons p rest ih =>
    simp only [List.map_cons, List.mem_cons] at h
    push_neg at h
    rw [lookupD_cons, if_neg (fun hp => h.1 hp.symm), ih h.2]

theorem setD_cons (p : V × List Word) (d : Domains V) (x : V) (ws : List Word) :
    setD (p :: d) x ws = if p.1 = x then (x, ws) :: d else p :: setD d x ws := rfl

theorem lookupD_setD_ne (d : Domains V) (x z : V) (ws : List Word) (h : z ≠ x) :
    lookupD (setD d x ws) z = lookupD d z := by
  induction d with
  | nil => rfl
  | cons p rest ih =>
    rw [setD_cons]
    by_cases hp : p.1 = x
    · rw [if_pos hp, lookupD_cons, lookupD_cons, if_neg (fun hx => h hx.symm),
        if_neg (fun hpz => h (hp ▸ hpz).symm)]
    · rw [if_neg hp, lookupD_cons, lookupD_cons, ih]

theorem lookupD_setD_self_of_mem {d : Domains V} {x : V} (ws : List Word)
    (h : x ∈ d.map Prod.fst) : lookupD (setD d x ws) x = ws := by
  induction d with
  | nil => simp at h
  | cons p rest ih =>
    rw [setD_cons]
    by_cases hp : p.1 = x
    · rw [if_pos hp, lookupD_cons, if_pos rfl]
    · simp only [List.map_cons, List.mem_cons] at h
      rcases h with h | h
      · exact absurd h.symm hp
      · rw [if_neg hp, lookupD_cons, if_neg hp, ih h]

theorem setD_of_not_mem {d : Domains V} {x : V} (ws : List Word)
    (h : x ∉ d.map Prod.fst) : setD d x ws = d := by
  induction d with
  | nil => rfl
  | cons p rest ih =>
    simp only [List.map_cons, List.mem_cons] at h
    push_neg at h
    rw [setD_cons, if_neg (fun hp => h.1 hp.symm), ih h.2]

theorem lookupD_setD_self_sub (d : Domains V) (x : V) (ws : List Word) :
    lookupD (setD d x ws) x ⊆ ws := by
  by_cases h : x ∈ d.map Prod.fst
  · rw [lookupD_setD_self_of_mem ws h]
    exact List.Subset.refl ws
  · rw [setD_of_not_mem ws h, lookupD_eq_nil_of_not_mem h]
    exact List.nil_subset ws


theorem setD_lookupD_self (d : Domains V) (x : V) : setD d x (lookupD d x) = d := by
  induction d with
  | nil => rfl
  | cons p rest ih =>
    rw [setD_cons, lookupD_cons]
    by_cases hp : p.1 = x
    · rw [if_pos hp, if_pos hp]
      cases p with
      | mk k v =>
        simp only at hp
        rw [hp]
    · rw [if_neg hp, if_neg hp]
      exact congrArg (p :: ·) ih

theorem keys_setD (d : Domains V) (x : V) (ws : List Word) :
    (setD d x ws).map Prod.fst = d.map Prod.fst := by
  induction d with
  | nil => rfl
  | cons p rest ih =>
    rw [setD_cons]
    by_cases hp : p.1 = x
    · rw [if_pos hp]; simp [hp]
    · rw [if_neg hp]; simp [ih]

omit [DecidableEq V] in
theorem sizeD_cons (p : V × List Word) (d : Domains V) :
    sizeD (p :: d) = p.2.length + sizeD d := by
  simp [sizeD]

theorem sizeD_setD_of_mem {d : Domains V} {x : V} (ws : List Word)
    (h : x ∈ d.map Prod.fst) :
    sizeD (setD d x ws) + (lookupD d x).length = sizeD d + ws.length := by
  induction d with
  | nil => simp at h
  | cons p rest ih =>
    rw [setD_cons, lookupD_cons]
    by_cases hp : p.1 = x
    · rw [if_pos hp, if_pos hp, sizeD_cons, sizeD_cons]
      simp only [hp]
      omega
    · simp only [List.map_cons, List.mem_cons] at h
      rcases h with h | h
      · exact absurd h.symm hp
      · rw [if_neg hp, if_neg hp, sizeD_cons, sizeD_cons]
        have := ih h
        omega

theorem revise_none {cw : CW V} {x y : V} (d : Domains V)
    (h : cw.overlaps x y = none) : revise cw x y d = (false, d) := by
  simp [revise, h]

theorem revise_some {cw : CW V} {x y : V} {xc yc : Nat} (d : Domains V)
    (h : cw.overlaps x y = some (xc, yc)) :
    revise cw x y d =
      (decide (((lookupD d x).filter (hasPartner (lookupD d y) xc yc)).length < (lookupD d x).length),
       setD d x ((lookupD d x).filter (hasPartner (lookupD d y) xc yc))) := by
  simp only [revise, h]
  rfl

theorem revise_false_eq {cw : CW V} {x y : V} {d : Domains V}
    (h : (revise cw x y d).1 = false) : (revise cw x y d).2 = d := by
  cases hov : cw.overlaps x y with
  | none => rw [revise_none d hov]
  | some p =>
    obtain ⟨xc, yc⟩ := p
    rw [revise_some d hov] at h ⊢
    simp only [decide_eq_false_iff_not, Nat.not_lt] at h
    have hle := List.length_filter_le (hasPartner (lookupD d y) xc yc) (lookupD d x)
    have heq : ((lookupD d x).filter (hasPartner (lookupD d y) xc yc)) = lookupD d x :=
      List.filter_eq_self.mpr (List.filter_length_eq_length.mp (Nat.le_antisymm hle h))
    rw [heq, setD_lookupD_self]

theorem revise_true_sizeD {cw : CW V} {x y : V} {d : Domains V}
    (h : (revise cw x y d).1 = true) : sizeD (revise cw x y d).2 < sizeD d := by
  cases hov : cw.overlaps x y with
  | none => rw [revise_none d hov] at h; simp at h
  | some p =>
    obtain ⟨xc, yc⟩ := p
    rw [revise_some d hov] at h ⊢
    simp only [decide_eq_true_eq] at h
    show sizeD (setD d x ((lookupD d x).filter (hasPartner (lookupD d y) xc yc))) < sizeD d
    have hx : x ∈ d.map Prod.fst := by
      by_contra hx
      rw [lookupD_eq_nil_of_not_mem hx] at h
      simp at h
    have := sizeD_setD_of_mem ((lookupD d x).filter (hasPartner (lookupD d y) xc yc)) hx
    omega

theorem revise_lookup_sub (cw : CW V) (x y z : V) (d : Domains V) :
    lookupD (revise cw x y d).2 z ⊆ lookupD d z := by
  cases hov : cw.overlaps x y with
  | none =>
    rw [revise_none d hov]
    exact List.Subset.refl _
  | some p =>
    obtain ⟨xc, yc⟩ := p
    rw [revise_some d hov]
    show lookupD (setD d x _) z ⊆ lookupD d z
    by_cases hz : z = x
    · subst hz
      intro w hw
      have := lookupD_setD_self_sub d z ((lookupD d z).filter (hasPartner (lookupD d y) xc yc)) hw
      exact List.mem_of_mem_filter this
    · rw [lookupD_setD_ne d x z _ hz]
      exact List.Subset.refl _

theorem revise_keys (cw : CW V) (x y : V) (d : Domains V) :
    (revise cw x y d).2.map Prod.fst = d.map Prod.fst := by
  cases hov : cw.overlaps x y with
  | none => rw [revise_none d hov]
  | some p =>
    obtain ⟨xc, yc⟩ := p
    rw [revise_some d hov]
    show (setD d x _).map Prod.fst = _
    exact keys_setD d x _

end CrosswordCSP

namespace CrosswordCSP

variable {V : Type} [DecidableEq V]

theorem ac3Chunk_cons (cw : CW V) (x y : V) (rest : List (V × V)) (d : Domains V) :
    ac3Chunk cw ((x, y) :: rest) d =
      if (revise cw x y d).1 then
        (if lookupD (revise cw x y d).2 x = [] then .inl (false, (revise cw x y d).2)
         else .inr (pushArcs cw x y rest, (revise cw x y d).2))
      else ac3Chunk cw rest (revise cw x y d).2 := rfl

theorem ac3Chunk_cons_norev (cw : CW V) {x y : V} (rest : List (V × V)) {d : Domains V}
    (h : (revise cw x y d).1 = false) :
    ac3Chunk cw ((x, y) :: rest) d = ac3Chunk cw rest d := by
  rw [ac3Chunk_cons, if_neg (by simp [h]), revise_false_eq h]

theorem ac3Chunk_cons_rev_empty (cw : CW V) {x y : V} (rest : List (V × V)) {d : Domains V}
    (h : (revise cw x y d).1 = true) (he : lookupD (revise cw x y d).2 x = []) :
    ac3Chunk cw ((x, y) :: rest) d = .inl (false, (revise cw x y d).2) := by
  rw [ac3Chunk_cons, if_pos h, if_pos he]

theorem ac3Chunk_cons_rev (cw : CW V) {x y : V} (rest : List (V × V)) {d : Domains V}
    (h : (revise cw x y d).1 = true) (he : lookupD (revise cw x y d).2 x ≠ []) :
    ac3Chunk cw ((x, y) :: rest) d = .inr (pushArcs cw x y rest, (revise cw x y d).2) := by
  rw [ac3Chunk_cons, if_pos h, if_neg he]

theorem ac3Chunk_inr_sizeD (cw : CW V) {stack : List (V × V)} {d : Domains V}
    {st' : List (V × V)} {d' : Domains V}
    (h : ac3Chunk cw stack d = .inr (st', d')) : sizeD d' < sizeD d := by
  induction stack generalizing d with
  | nil => simp [ac3Chunk] at h
  | cons arc rest ih =>
    obtain ⟨x, y⟩ := arc
    by_cases hr : (revise cw x y d).1 = true
    · by_cases he : lookupD (revise cw x y d).2 x = []
      · rw [ac3Chunk_cons_rev_empty cw rest hr he] at h
        simp at h
      · rw [ac3Chunk_cons_rev cw rest hr he] at h
        simp only [Sum.inr.injEq, Prod.mk.injEq] at h
        rw [← h.2]
        exact revise_true_sizeD hr
    · rw [ac3Chunk_cons_norev cw rest (Bool.not_eq_true _ ▸ hr)] at h
      exact ih h

theorem ac3Chunk_inl_sizeD (cw : CW V) {stack : List (V × V)} {d : Domains V}
    {b : Bool} {d' : Domains V}
    (h : ac3Chunk cw stack d = .inl (b, d')) : sizeD d' ≤ sizeD d := by
  induction stack generalizing d with
  | nil =>
    simp only [ac3Chunk, Sum.inl.injEq, Prod.mk.injEq] at h
    rw [← h.2]
  | cons arc rest ih =>
    obtain ⟨x, y⟩ := arc
    by_cases hr : (revise cw x y d).1 = true
    · by_cases he : lookupD (revise cw x y d).2 x = []
      · rw [ac3Chunk_cons_rev_empty cw rest hr he] at h
        simp only [Sum.inl.injEq, Prod.mk.injEq] at h
        rw [← h.2]
        exact Nat.le_of_lt (revise_true_sizeD hr)
      · rw [ac3Chunk_cons_rev cw rest hr he] at h
        simp at h
    · rw [ac3Chunk_cons_norev cw rest (Bool.not_eq_true _ ▸ hr)] at h
      exact ih h

theorem ac3Gas_eq_of_le (cw : CW V) {d : Domains V} {g1 g2 : Nat}
    (h1 : sizeD d ≤ g1) (h2 : sizeD d ≤ g2) (stack : List (V × V)) :
    ac3Gas cw g1 stack d = ac3Gas cw g2 stack d := by
  induction g1 generalizing g2 stack d with
  | zero =>
    cases hc : ac3Chunk cw stack d with
    | inl res =>
      cases g2 with
      | zero => rfl
      | succ g2 => simp [ac3Gas, hc]
    | inr p =>
      obtain ⟨st', d'⟩ := p
      exact absurd (ac3Chunk_inr_sizeD cw hc) (by omega)
  | succ g1 ih =>
    cases hc : ac3Chunk cw stack d with
    | inl res =>
      cases g2 with
      | zero => simp [ac3Gas, hc]
      | succ g2 => simp [ac3Gas, hc]
    | inr p =>
      obtain ⟨st', d'⟩ := p
      have hlt := ac3Chunk_inr_sizeD cw hc
      cases g2 with
      | zero => exact absurd hlt (by omega)
      | succ g2 =>
        simp only [ac3Gas, hc]
        exact ih (by omega) (by omega) st'

theorem ac3_eq_run (cw : CW V) (arcs : Option (List (V × V))) (d : Domains V) :
    ac3 cw arcs d = ac3Run cw (initStack cw arcs d) d := rfl

theorem ac3Run_norev (cw : CW V) {x y : V} (rest : List (V × V)) {d : Domains V}
    (h : (revise cw x y d).1 = false) :
    ac3Run cw ((x, y) :: rest) d = ac3Run cw rest d := by
  unfold ac3Run
  cases hg : sizeD d with
  | zero => simp only [ac3Gas, ac3Chunk_cons_norev cw rest h]
  | succ g => simp only [ac3Gas, ac3Chunk_cons_norev cw rest h]

theorem ac3Run_rev (cw : CW V) {x y : V} (rest : List (V × V)) {d : Domains V}
    (h : (revise cw x y d).1 = true) (hne : lookupD (revise cw x y d).2 x ≠ []) :
    ac3Run cw ((x, y) :: rest) d = ac3Run cw (pushArcs cw x y rest) (revise cw x y d).2 := by
  unfold ac3Run
  have hlt : sizeD (revise cw x y d).2 < sizeD d := revise_true_sizeD h
  cases hg : sizeD d with
  | zero => omega
  | succ g =>
    simp only [ac3Gas, ac3Chunk_cons_rev cw rest h hne]
    exact ac3Gas_eq_of_le cw (by omega) (Nat.le_refl _) _

theorem ac3Run_nil (cw : CW V) (d : Domains V) : ac3Run cw [] d = (true, d) := by
  unfold ac3Run
  cases hg : sizeD d with
  | zero => simp [ac3Gas, ac3Chunk]
  | succ g => simp [ac3Gas, ac3Chunk]

theorem ac3Run_rev_empty (cw : CW V) {x y : V} (rest : List (V × V)) {d : Domains V}
    (h : (revise cw x y d).1 = true) (he : lookupD (revise cw x y d).2 x = []) :
    ac3Run cw ((x, y) :: rest) d = (false, (revise cw x y d).2) := by
  unfold ac3Run
  cases hg : sizeD d with
  | zero =>
    have := revise_true_sizeD h
    omega
  | succ g => simp only [ac3Gas, ac3Chunk_cons_rev_empty cw rest h he]

theorem reaches_ac3Run (cw : CW V) {s : List (V × V)} {d : Domains V}
    {s' : List (V × V)} {d' : Domains V} (h : Reaches cw s d s' d') :
    ac3Run cw s d = ac3Run cw s' d' := by
  induction h with
  | refl s d => rfl
  | norev hr next ih => rw [ac3Run_norev cw _ hr, revise_false_eq hr] at *; exact ih
  | rev hr hne next ih => rw [ac3Run_rev cw _ hr hne]; exact ih

theorem reaches_trans (cw : CW V) {s1 : List (V × V)} {d1 : Domains V}
    {s2 : List (V × V)} {d2 : Domains V} {s3 : List (V × V)} {d3 : Domains V}
    (h1 : Reaches cw s1 d1 s2 d2) (h2 : Reaches cw s2 d2 s3 d3) :
    Reaches cw s1 d1 s3 d3 := by
  induction h1 with
  | refl s d => exact h2
  | norev hr next ih => exact Reaches.norev hr (ih h2)
  | rev hr hne next ih => exact Reaches.rev hr hne (ih h2)

theorem ac3Run_true_reaches (cw : CW V) {s : List (V × V)} {d : Domains V}
    {d' : Domains V} (h : ac3Run cw s d = (true, d')) :
    Reaches cw s d [] d' := by
  generalize hn : sizeD d = n at *
  induction n using Nat.strong_induction_on generalizing s d with
  | _ n ihn =>
    induction s generalizing d with
    | nil =>
      rw [ac3Run_nil] at h
      cases h
      exact Reaches.refl [] d'
    | cons arc rest ihs =>
      obtain ⟨x, y⟩ := arc
      by_cases hr : (revise cw x y d).1 = true
      · by_cases he : lookupD (revise cw x y d).2 x = []
        · rw [ac3Run_rev_empty cw rest hr he] at h
          cases h
        · rw [ac3Run_rev cw rest hr he] at h
          have hlt := revise_true_sizeD hr
          exact Reaches.rev hr he
            (ihn (sizeD (revise cw x y d).2) (by omega) h rfl)
      · have hr' : (revise cw x y d).1 = false := Bool.not_eq_true _ ▸ hr
        rw [ac3Run_norev cw rest hr'] at h
        have hrec := ihs (d := d) h hn
        exact Reaches.norev hr' (by rw [revise_false_eq hr']; exact hrec)

theorem ac3Run_false_reaches (cw : CW V) {s : List (V × V)} {d : Domains V}
    {d' : Domains V} (h : ac3Run cw s d = (false, d')) :
    ∃ x y rest dm, Reaches cw s d ((x, y) :: rest) dm ∧
      (revise cw x y dm).1 = true ∧ lookupD (revise cw x y dm).2 x = [] ∧
      lookupD dm x ≠ [] ∧ d' = (revise cw x y dm).2 := by
  generalize hn : sizeD d = n at *
  induction n using Nat.strong_induction_on generalizing s d with
  | _ n ihn =>
    induction s generalizing d with
    | nil =>
      rw [ac3Run_nil] at h
      cases h
    | cons arc rest ihs =>
      obtain ⟨x, y⟩ := arc
      by_cases hr : (revise cw x y d).1 = true
      · by_cases he : lookupD (revise cw x y d).2 x = []
        · rw [ac3Run_rev_empty cw rest hr he] at h
          cases h
          refine ⟨x, y, rest, d, Reaches.refl _ _, hr, he, ?_, rfl⟩
          intro hemp
          have hsub : lookupD (revise cw x y d).2 x ⊆ lookupD d x := revise_lookup_sub cw x y x d
          -- a true revision needs a nonempty previous domain
          cases hov : cw.overlaps x y with
          | none => rw [revise_none d hov] at hr; simp at hr
          | some p =>
            obtain ⟨xc, yc⟩ := p
            rw [revise_some d hov] at hr
            simp only [decide_eq_true_eq] at hr
            rw [hemp] at hr
            simp at hr
        · rw [ac3Run_rev cw rest hr he] at h
          have hlt := revise_true_sizeD hr
          obtain ⟨x', y', rest', dm, hre, h1, h2, h3, h4⟩ :=
            ihn (sizeD (revise cw x y d).2) (by omega) h rfl
          exact ⟨x', y', rest', dm, Reaches.rev hr he hre, h1, h2, h3, h4⟩
      · have hr' : (revise cw x y d).1 = false := Bool.not_eq_true _ ▸ hr
        rw [ac3Run_norev cw rest hr'] at h
        obtain ⟨x', y', rest', dm, hre, h1, h2, h3, h4⟩ := ihs (d := d) h hn
        exact ⟨x', y', rest', dm,
          Reaches.norev hr' (by rw [revise_false_eq hr']; exact hre), h1, h2, h3, h4⟩

end CrosswordCSP

namespace CrosswordCSP

variable {V : Type} [DecidableEq V]

theorem length_filter_lt_iff {α : Type} (p : α → Bool) (l : List α) :
    (l.filter p).length < l.length ↔ ∃ a ∈ l, ¬ p a = true := by
  constructor
  · intro h
    by_contra hc
    push_neg at hc
    have : l.filter p = l := List.filter_eq_self.mpr hc
    rw [this] at h
    omega
  · intro ⟨a, ha, hpa⟩
    have hle := List.length_filter_le p l
    rcases Nat.lt_or_ge (l.filter p).length l.length with h | h
    · exact h
    · have heq : (l.filter p).length = l.length := Nat.le_antisymm hle h
      have : l.filter p = l := List.filter_eq_self.mpr (List.filter_length_eq_length.mp heq)
      have : a ∈ l.filter p := this.symm ▸ ha
      rw [List.mem_filter] at this
      exact absurd this.2 hpa

/-- Claim C3: contract of `revise(x, y)`.  Without an overlap nothing is
changed and `False` is returned; with overlap indices `(ix, iy)` the
domain of `x` becomes exactly the words of the old domain of `x` having
a distinct partner in the domain of `y` matching at the overlap indices,
every other domain is unchanged, and `True` is returned precisely when
the domain of `x` lost at least one word. -/
theorem revise_contract (cw : CW V) (x y : V) (d : Domains V) :
    (cw.overlaps x y = none → revise cw x y d = (false, d)) ∧
    (∀ ix iy, cw.overlaps x y = some (ix, iy) →
      lookupD (revise cw x y d).2 x = (lookupD d x).filter (hasPartner (lookupD d y) ix iy) ∧
      (∀ z, z ≠ x → lookupD (revise cw x y d).2 z = lookupD d z) ∧
      ((revise cw x y d).1 = true ↔
        ∃ w, w ∈ lookupD d x ∧ w ∉ lookupD (revise cw x y d).2 x)) := by
  refine ⟨fun h => revise_none d h, fun ix iy h => ?_⟩
  have hself : lookupD (revise cw x y d).2 x =
      (lookupD d x).filter (hasPartner (lookupD d y) ix iy) := by
    rw [revise_some d h]
    show lookupD (setD d x _) x = _
    by_cases hx : x ∈ d.map Prod.fst
    · exact lookupD_setD_self_of_mem _ hx
    · rw [setD_of_not_mem _ hx, lookupD_eq_nil_of_not_mem hx]
      simp
  refine ⟨hself, fun z hz => ?_, ?_⟩
  · rw [revise_some d h]
    show lookupD (setD d x _) z = _
    exact lookupD_setD_ne d x z _ hz
  · constructor
    · intro ht
      rw [revise_some d h] at ht
      simp only [decide_eq_true_eq] at ht
      obtain ⟨w, hwl, hwp⟩ := (length_filter_lt_iff _ _).mp ht
      refine ⟨w, hwl, ?_⟩
      rw [hself, List.mem_filter]
      intro hmem
      exact hwp hmem.2
    · intro ⟨w, hwl, hwr⟩
      rw [revise_some d h]
      simp only [decide_eq_true_eq]
      refine (length_filter_lt_iff _ _).mpr ⟨w, hwl, ?_⟩
      intro hp
      exact hwr (hself ▸ List.mem_filter.mpr ⟨hwl, hp⟩)

/-- Witness for claim C3, at slots 0 and 3 of puzzle B. -/
theorem revise_contract_witness :
    cwB.overlaps 0 3 = some (1, 0) ∧
    lookupD (revise cwB 0 3 dB).2 0 = (lookupD dB 0).filter (hasPartner (lookupD dB 3) 1 0) ∧
    lookupD (revise cwB 0 3 dB).2 4 = lookupD dB 4 := by
  refine ⟨by decide, ?_, ?_⟩
  · exact ((revise_contract cwB 0 3 dB).2 1 0 (by decide)).1
  · exact ((revise_contract cwB 0 3 dB).2 1 0 (by decide)).2.1 4 (by decide)

/-- Claim C5: `ac3` returns `True` exactly when the worklist loop runs to
an exhausted worklist (in particular no call to `revise` emptied any
domain along the way, since an emptying revision has no outgoing step),
and returns `False` exactly when the loop reaches a state whose next
`revise` call shrinks the revised domain from nonempty to empty; in that
case the returned store is the store at that very moment — the remaining
worklist is not processed. -/
theorem ac3_reports (cw : CW V) (arcs : Option (List (V × V))) (d : Domains V) :
    (∀ d', ac3 cw arcs d = (true, d') ↔ Reaches cw (initStack cw arcs d) d [] d') ∧
    (∀ d', ac3 cw arcs d = (false, d') ↔
      ∃ x y rest dm, Reaches cw (initStack cw arcs d) d ((x, y) :: rest) dm ∧
        (revise cw x y dm).1 = true ∧ lookupD dm x ≠ [] ∧
        lookupD (revise cw x y dm).2 x = [] ∧ d' = (revise cw x y dm).2) := by
  constructor
  · intro d'
    constructor
    · intro h
      exact ac3Run_true_reaches cw (ac3_eq_run cw arcs d ▸ h)
    · intro h
      rw [ac3_eq_run cw arcs d, reaches_ac3Run cw h, ac3Run_nil]
  · intro d'
    constructor
    · intro h
      obtain ⟨x, y, rest, dm, hre, h1, h2, h3, h4⟩ :=
        ac3Run_false_reaches cw (ac3_eq_run cw arcs d ▸ h)
      exact ⟨x, y, rest, dm, hre, h1, h3, h2, h4⟩
    · intro ⟨x, y, rest, dm, hre, h1, h2, h3, h4⟩
      rw [ac3_eq_run cw arcs d, reaches_ac3Run cw hre, ac3Run_rev_empty cw rest h1 h3, h4]

/-- Witness for claim C5: the success case evaluated at puzzle C's first
propagation. -/
theorem ac3_reports_witness :
    ac3 cwC none (enforce_node_consistency cwC (initialDomains cwC)) = (true, dC) ∧
    Reaches cwC (initStack cwC none (enforce_node_consistency cwC (initialDomains cwC)))
      (enforce_node_consistency cwC (initialDomains cwC)) [] dC :=
  ⟨by decide,
    ((ac3_reports cwC none (enforce_node_consistency cwC (initialDomains cwC))).1 dC).mp
      (by decide)⟩

/-- Claim C8: `order_domain_values(var, assignment)` returns exactly the
words of the domain of `var` (as a permutation of the stored list),
sorted ascending by the score counting, over the unassigned neighbors,
the neighbor-candidate words whose overlap character matches. -/
theorem order_domain_values_contract (cw : CW V) (d : Domains V) (a : Assign V) (var : V) :
    (order_domain_values cw d a var).Perm (lookupD d var) ∧
    (order_domain_values cw d a var).Pairwise
      (fun u v => odvScore cw d a var u ≤ odvScore cw d a var v) := by
  constructor
  · exact List.perm_insertionSort _ _
  · haveI : IsTotal Word (fun u v => odvScore cw d a var u ≤ odvScore cw d a var v) :=
      ⟨fun u v => Nat.le_total _ _⟩
    haveI : IsTrans Word (fun u v => odvScore cw d a var u ≤ odvScore cw d a var v) :=
      ⟨fun u v w => Nat.le_trans⟩
    exact List.sorted_insertionSort _ _

end CrosswordCSP

namespace CrosswordCSP

variable {V : Type} [DecidableEq V]

theorem ac3Chunk_inl_sub (cw : CW V) {stack : List (V × V)} {d : Domains V}
    {b : Bool} {d' : Domains V} (h : ac3Chunk cw stack d = .inl (b, d')) :
    ∀ z, lookupD d' z ⊆ lookupD d z := by
  induction stack generalizing d with
  | nil =>
    simp only [ac3Chunk, Sum.inl.injEq, Prod.mk.injEq] at h
    rw [← h.2]
    exact fun z => List.Subset.refl _
  | cons arc rest ih =>
    obtain ⟨x, y⟩ := arc
    by_cases hr : (revise cw x y d).1 = true
    · by_cases he : lookupD (revise cw x y d).2 x = []
      · rw [ac3Chunk_cons_rev_empty cw rest hr he] at h
        simp only [Sum.inl.injEq, Prod.mk.injEq] at h
        rw [← h.2]
        exact fun z => revise_lookup_sub cw x y z d
      · rw [ac3Chunk_cons_rev cw rest hr he] at h
        simp at h
    · rw [ac3Chunk_cons_norev cw rest (Bool.not_eq_true _ ▸ hr)] at h
      exact ih h

theorem ac3Chunk_inr_sub (cw : CW V) {stack : List (V × V)} {d : Domains V}
    {st' : List (V × V)} {d' : Domains V} (h : ac3Chunk cw stack d = .inr (st', d')) :
    ∀ z, lookupD d' z ⊆ lookupD d z := by
  induction stack generalizing d with
  | nil => simp [ac3Chunk] at h
  | cons arc rest ih =>
    obtain ⟨x, y⟩ := arc
    by_cases hr : (revise cw x y d).1 = true
    · by_cases he : lookupD (revise cw x y d).2 x = []
      · rw [ac3Chunk_cons_rev_empty cw rest hr he] at h
        simp at h
      · rw [ac3Chunk_cons_rev cw rest hr he] at h
        simp only [Sum.inr.injEq, Prod.mk.injEq] at h
        rw [← h.2]
        exact fun z => revise_lookup_sub cw x y z d
    · rw [ac3Chunk_cons_norev cw rest (Bool.not_eq_true _ ▸ hr)] at h
      exact ih h

theorem ac3Gas_sub (cw : CW V) (gas : Nat) (stack : List (V × V)) (d : Domains V) :
    ∀ z, lookupD (ac3Gas cw gas stack d).2 z ⊆ lookupD d z := by
  induction gas generalizing stack d with
  | zero =>
    intro z
    cases hc : ac3Chunk cw stack d with
    | inl res =>
      obtain ⟨b, d'⟩ := res
      simp only [ac3Gas, hc]
      exact ac3Chunk_inl_sub cw hc z
    | inr p =>
      obtain ⟨st', d'⟩ := p
      simp only [ac3Gas, hc]
      exact ac3Chunk_inr_sub cw hc z
  | succ gas ih =>
    intro z
    cases hc : ac3Chunk cw stack d with
    | inl res =>
      obtain ⟨b, d'⟩ := res
      simp only [ac3Gas, hc]
      exact ac3Chunk_inl_sub cw hc z
    | inr p =>
      obtain ⟨st', d'⟩ := p
      simp only [ac3Gas, hc]
      exact List.Subset.trans (ih st' d' z) (ac3Chunk_inr_sub cw hc z)

theorem ac3_sub (cw : CW V) (arcs : Option (List (V × V))) (d : Domains V) :
    ∀ z, lookupD (ac3 cw arcs d).2 z ⊆ lookupD d z :=
  ac3Gas_sub cw (sizeD d) (initStack cw arcs d) d

theorem consistent_sub (cw : CW V) (a : Assign V) (d : Domains V) :
    ∀ z, lookupD (consistent cw a d).2 z ⊆ lookupD d z :=
  ac3_sub cw none d

theorem mem_odv_mem_lookupD {cw : CW V} {d : Domains V} {a : Assign V} {var : V}
    {w : Word} (h : w ∈ order_domain_values cw d a var) : w ∈ lookupD d var :=
  (List.perm_insertionSort _ _).mem_iff.mp h

theorem tryValues_sub (cw : CW V) (var : V)
    (btrec : Assign V → Domains V → Option (Assign V) × Domains V)
    (hbt : ∀ a d z, lookupD (btrec a d).2 z ⊆ lookupD d z) :
    ∀ (values : List Word) (a : Assign V) (d : Domains V) (z : V),
      lookupD (tryValues btrec cw var a values d).2 z ⊆ lookupD d z := by
  intro values
  induction values with
  | nil =>
    intro a d z
    exact List.Subset.refl _
  | cons w rest ih =>
    intro a d z
    show lookupD (tryValues btrec cw var a (w :: rest) d).2 z ⊆ lookupD d z
    rw [tryValues]
    by_cases hm : w ∈ order_domain_values cw ((consistent cw a d).2) a var
    · rw [if_pos hm]
      have hset : ∀ u, lookupD (setD ((consistent cw a d).2) var [w]) u ⊆ lookupD d u := by
        intro u
        by_cases hu : u = var
        · subst hu
          intro c hc
          have := lookupD_setD_self_sub ((consistent cw a d).2) u [w] hc
          simp only [List.mem_singleton] at this
          subst this
          exact consistent_sub cw a d u (mem_odv_mem_lookupD hm)
        · rw [lookupD_setD_ne _ _ _ _ hu]
          exact consistent_sub cw a d u
      have hrec := hbt (insertA a var w) (setD ((consistent cw a d).2) var [w]) z
      cases hb : btrec (insertA a var w) (setD ((consistent cw a d).2) var [w]) with
      | mk r d2 =>
        rw [hb] at hrec
        cases r with
        | some res =>
          simp only
          exact List.Subset.trans hrec (hset z)
        | none =>
          simp only
          refine List.Subset.trans (ih a d2 z) ?_
          exact List.Subset.trans hrec (hset z)
    · rw [if_neg hm]
      exact List.Subset.trans (ih a ((consistent cw a d).2) z) (consistent_sub cw a d z)

theorem backtrack_sub (cw : CW V) :
    ∀ (fuel : Nat) (a : Assign V) (d : Domains V) (z : V),
      lookupD (backtrack cw fuel a d).2 z ⊆ lookupD d z := by
  intro fuel
  induction fuel with
  | zero =>
    intro a d z
    exact List.Subset.refl _
  | succ fuel ih =>
    intro a d z
    rw [backtrack]
    by_cases hc : assignment_complete a d
    · rw [if_pos hc]
      exact List.Subset.refl _
    · rw [if_neg hc]
      cases select_unassigned_variable cw d a with
      | none => exact List.Subset.refl _
      | some var =>
        exact tryValues_sub cw var (backtrack cw fuel) (fun a d z => ih a d z) _ a d z

theorem LenOK_of_sub {cw : CW V} {d d' : Domains V}
    (hsub : ∀ z, lookupD d' z ⊆ lookupD d z) (h : LenOK cw d) : LenOK cw d' :=
  fun v w hw => h v w (hsub v hw)

theorem lookupD_enforce (cw : CW V) (d : Domains V) (v : V) :
    lookupD (enforce_node_consistency cw d) v =
      (lookupD d v).filter (fun w => decide (w.length = cw.length v)) := by
  induction d with
  | nil => rfl
  | cons p rest ih =>
    show lookupD ((p.1, p.2.filter _) :: enforce_node_consistency cw rest) v = _
    rw [lookupD_cons, lookupD_cons]
    by_cases hp : p.1 = v
    · rw [if_pos hp, if_pos hp, hp]
    · rw [if_neg hp, if_neg hp, ih]

theorem lookupD_constMap (ws : List Word) (l : List V) {v : V} (h : v ∈ l) :
    lookupD (l.map (fun u => (u, ws))) v = ws := by
  induction l with
  | nil => simp at h
  | cons u rest ih =>
    rw [List.map_cons, lookupD_cons]
    by_cases hu : u = v
    · rw [if_pos hu]
    · rcases List.mem_cons.mp h with h' | h'
      · exact absurd h'.symm hu
      · rw [if_neg hu, ih h']

theorem lookupD_initial (cw : CW V) {v : V} (h : v ∈ cw.vars) :
    lookupD (initialDomains cw) v = cw.words :=
  lookupD_constMap cw.words cw.vars h

theorem LenOK_of_entries (cw : CW V) (d : Domains V)
    (h : ∀ p ∈ d, ∀ w ∈ p.2, w.length = cw.length p.1) : LenOK cw d := by
  intro v w hw
  unfold lookupD at hw
  cases hf : d.find? (fun p => decide (p.1 = v)) with
  | none => rw [hf] at hw; simp at hw
  | some p =>
    rw [hf] at hw
    have hpv : p.1 = v := by
      have := List.find?_some hf
      simpa using this
    have hpd : p ∈ d := List.mem_of_find?_eq_some hf
    rw [← hpv]
    exact h p hpd w hw

/-- Claim C9: after `enforce_node_consistency` runs on the initial
store, every slot's domain is exactly the pool words of the slot's
length; and the property that every stored word has its slot's length is
preserved by `revise`, `ac3`, `consistent` and `backtrack` (domains only
ever shrink, except for the singleton commit whose word comes from the
current domain). -/
theorem node_consistency_invariant (cw : CW V) :
    (∀ v, v ∈ cw.vars → lookupD (enforce_node_consistency cw (initialDomains cw)) v =
      cw.words.filter (fun w => decide (w.length = cw.length v))) ∧
    (∀ x y d, LenOK cw d → LenOK cw (revise cw x y d).2) ∧
    (∀ arcs d, LenOK cw d → LenOK cw (ac3 cw arcs d).2) ∧
    (∀ a d, LenOK cw d → LenOK cw (consistent cw a d).2) ∧
    (∀ fuel a d, LenOK cw d → LenOK cw (backtrack cw fuel a d).2) := by
  refine ⟨?_, ?_, ?_, ?_, ?_⟩
  · intro v hv
    rw [lookupD_enforce, lookupD_initial cw hv]
  · intro x y d h
    exact LenOK_of_sub (fun z => revise_lookup_sub cw x y z d) h
  · intro arcs d h
    exact LenOK_of_sub (ac3_sub cw arcs d) h
  · intro a d h
    exact LenOK_of_sub (consistent_sub cw a d) h
  · intro fuel a d h
    exact LenOK_of_sub (fun z => backtrack_sub cw fuel a d z) h

/-- Witness for claim C9: the exact post-pass domain of slot 2 of puzzle
B, and preservation through a full `solve`-like search step. -/
theorem node_consistency_invariant_witness :
    (2 : Fin 5) ∈ cwB.vars ∧
    lookupD (enforce_node_consistency cwB (initialDomains cwB)) 2 =
      cwB.words.filter (fun w => decide (w.length = cwB.length 2)) ∧
    LenOK cwB (backtrack cwB 6 [] dB).2 := by
  refine ⟨by decide, ?_, ?_⟩
  · exact (node_consistency_invariant cwB).1 2 (by decide)
  · exact (node_consistency_invariant cwB).2.2.2.2 6 [] dB
      (LenOK_of_entries cwB dB (by decide))

/-- Claim C10: the two candidate loops agree — replacing the
`consistent(assignment)` call (whose boolean verdict `backtrack`
discards) by a bare `ac3()` call changes neither the result nor the
final domain store. -/
theorem tryValuesAlt_eq (cw : CW V) (var : V)
    (bt1 bt2 : Assign V → Domains V → Option (Assign V) × Domains V)
    (hbt : ∀ a d, bt1 a d = bt2 a d) :
    ∀ (values : List Word) (a : Assign V) (d : Domains V),
      tryValuesAlt bt1 cw var a values d = tryValues bt2 cw var a values d := by
  intro values
  induction values with
  | nil => intro a d; rfl
  | cons w rest ih =>
    intro a d
    rw [tryValuesAlt, tryValues]
    have hd : (ac3 cw none d).2 = (consistent cw a d).2 := rfl
    rw [hd, hbt]
    by_cases hm : w ∈ order_domain_values cw ((consistent cw a d).2) a var
    · rw [if_pos hm, if_pos hm]
      cases bt2 (insertA a var w) (setD ((consistent cw a d).2) var [w]) with
      | mk r d2 =>
        cases r with
        | some res => rfl
        | none => exact ih a d2
    · rw [if_neg hm, if_neg hm]
      exact ih a ((consistent cw a d).2)

end CrosswordCSP

namespace CrosswordCSP

variable {V : Type} [DecidableEq V]

/-- Claim C10: `backtrack` discards the verdict of the Global
Consistency Check, so for every crossword, fuel, partial assignment and
domain store it returns the same result and leaves the same final domain
store as the variant whose `consistent(assignment)` call is replaced by
a bare `ac3()` call; candidate filtering happens solely through the
domain-membership re-test. -/
theorem backtrack_discards_check (cw : CW V) :
    ∀ (fuel : Nat) (a : Assign V) (d : Domains V),
      backtrackAlt cw fuel a d = backtrack cw fuel a d := by
  intro fuel
  induction fuel with
  | zero => intro a d; rfl
  | succ fuel ih =>
    intro a d
    rw [backtrackAlt, backtrack]
    by_cases hc : assignment_complete a d = true
    · rw [if_pos hc, if_pos hc]
    · rw [if_neg hc, if_neg hc]
      cases select_unassigned_variable cw d a with
      | none => rfl
      | some var => exact tryValuesAlt_eq cw var _ _ ih _ a d

theorem select_eq_fold (cw : CW V) (d : Domains V) (a : Assign V) :
    select_unassigned_variable cw d a =
      ((d.filter (fun p => !hasKey a p.1)).foldl (selStep cw) (none, 10000)).1 := rfl

theorem selStep_lt {cw : CW V} {st : Option V × Nat} {p : V × List Word}
    (h : p.2.length < st.2) : selStep cw st p = (some p.1, p.2.length) := by
  rw [selStep, if_pos h]

theorem selStep_eq {cw : CW V} {st : Option V × Nat} {p : V × List Word}
    (h : st.2 = p.2.length) :
    selStep cw st p =
      (if degOf cw (some p.1) > degOf cw st.1 then some p.1 else st.1, st.2) := by
  rw [selStep, if_neg (by omega), if_pos h]

theorem selStep_gt {cw : CW V} {st : Option V × Nat} {p : V × List Word}
    (h : st.2 < p.2.length) : selStep cw st p = st := by
  rw [selStep, if_neg (by omega), if_neg (by omega)]

theorem selFold_aux (cw : CW V) :
    ∀ (l : List (V × List Word)) (k : V) (m : Nat),
      m < 10000 → (∀ p ∈ l, p.2.length < 10000) →
      ∃ (k' : V) (m' : Nat),
        l.foldl (selStep cw) (some k, m) = (some k', m') ∧
        ((k' = k ∧ m' = m) ∨ ∃ p ∈ l, k' = p.1 ∧ m' = p.2.length) ∧
        m' ≤ m ∧ (∀ q ∈ l, m' ≤ q.2.length) ∧
        (m' = m → degOf cw (some k) ≤ degOf cw (some k')) ∧
        (∀ q ∈ l, q.2.length = m' → degOf cw (some q.1) ≤ degOf cw (some k')) := by
  intro l
  induction l with
  | nil =>
    intro k m hm _
    exact ⟨k, m, rfl, Or.inl ⟨rfl, rfl⟩, Nat.le_refl m, by simp, fun _ => Nat.le_refl _, by simp⟩
  | cons p rest ih =>
    intro k m hm hsmall
    have hp := hsmall p (List.mem_cons_self p rest)
    rw [List.foldl_cons]
    rcases Nat.lt_trichotomy p.2.length m with hlt | heq | hgt
    · rw [selStep_lt hlt]
      obtain ⟨k', m', hfold, horig, hle, hmin, hdeg, htie⟩ :=
        ih p.1 p.2.length hp (fun q hq => hsmall q (List.mem_cons_of_mem p hq))
      refine ⟨k', m', hfold, ?_, by omega, ?_, ?_, ?_⟩
      · rcases horig with ⟨h1, h2⟩ | ⟨q, hq, h1, h2⟩
        · exact Or.inr ⟨p, List.mem_cons_self p rest, h1, h2⟩
        · exact Or.inr ⟨q, List.mem_cons_of_mem p hq, h1, h2⟩
      · intro q hq
        rcases List.mem_cons.mp hq with h | h
        · subst h; omega
        · exact hmin q h
      · intro h
        omega
      · intro q hq hql
        rcases List.mem_cons.mp hq with h | h
        · subst h
          exact hdeg (by omega)
        · exact htie q h hql
    · have hk1 : ∃ k1 : V, selStep cw (some k, m) p = (some k1, m) ∧
          degOf cw (some k) ≤ degOf cw (some k1) ∧
          degOf cw (some p.1) ≤ degOf cw (some k1) ∧ (k1 = p.1 ∨ k1 = k) := by
        rw [selStep_eq (by omega)]
        by_cases hd : degOf cw (some p.1) > degOf cw (some k)
        · rw [if_pos hd]
          exact ⟨p.1, rfl, by omega, Nat.le_refl _, Or.inl rfl⟩
        · rw [if_neg hd]
          exact ⟨k, rfl, Nat.le_refl _, by omega, Or.inr rfl⟩
      obtain ⟨k1, hstep, hdegk, hdegp, hk1or⟩ := hk1
      rw [hstep]
      obtain ⟨k', m', hfold, horig, hle, hmin, hdeg, htie⟩ :=
        ih k1 m hm (fun q hq => hsmall q (List.mem_cons_of_mem p hq))
      refine ⟨k', m', hfold, ?_, hle, ?_, ?_, ?_⟩
      · rcases horig with ⟨h1, h2⟩ | ⟨q, hq, h1, h2⟩
        · rcases hk1or with hk | hk
          · exact Or.inr ⟨p, List.mem_cons_self p rest, h1.trans hk, by omega⟩
          · exact Or.inl ⟨h1.trans hk, h2⟩
        · exact Or.inr ⟨q, List.mem_cons_of_mem p hq, h1, h2⟩
      · intro q hq
        rcases List.mem_cons.mp hq with h | h
        · subst h; omega
        · exact hmin q h
      · intro h
        exact Nat.le_trans hdegk (hdeg h)
      · intro q hq hql
        rcases List.mem_cons.mp hq with h | h
        · subst h
          have hm' : m' = m := by omega
          exact Nat.le_trans hdegp (hdeg hm')
        · exact htie q h hql
    · rw [selStep_gt hgt]
      obtain ⟨k', m', hfold, horig, hle, hmin, hdeg, htie⟩ :=
        ih k m hm (fun q hq => hsmall q (List.mem_cons_of_mem p hq))
      refine ⟨k', m', hfold, ?_, hle, ?_, hdeg, ?_⟩
      · rcases horig with ⟨h1, h2⟩ | ⟨q, hq, h1, h2⟩
        · exact Or.inl ⟨h1, h2⟩
        · exact Or.inr ⟨q, List.mem_cons_of_mem p hq, h1, h2⟩
      · intro q hq
        rcases List.mem_cons.mp hq with h | h
        · subst h; omega
        · exact hmin q h
      · intro q hq hql
        rcases List.mem_cons.mp hq with h | h
        · subst h
          omega
        · exact htie q h hql

end CrosswordCSP

namespace CrosswordCSP

variable {V : Type} [DecidableEq V]

/-- Claim C7, amended: whenever at least one slot is unassigned and
every unassigned slot's domain holds fewer than 10000 words (the literal
sentinel initializing `min_val_size`), `select_unassigned_variable`
returns an unassigned slot of minimal domain size, and of maximal
neighbor count among those tied for minimal size.  (Without the bound
the sentinel makes the scan miss every slot and return `None`, see the
counterexample.) -/
theorem select_contract (cw : CW V) (d : Domains V) (a : Assign V)
    (hne : d.filter (fun p => !hasKey a p.1) ≠ [])
    (hsmall : ∀ p ∈ d.filter (fun p => !hasKey a p.1), p.2.length < 10000) :
    ∃ p ∈ d.filter (fun p => !hasKey a p.1),
      select_unassigned_variable cw d a = some p.1 ∧
      hasKey a p.1 = false ∧
      (∀ q ∈ d.filter (fun p => !hasKey a p.1), p.2.length ≤ q.2.length) ∧
      (∀ q ∈ d.filter (fun p => !hasKey a p.1), q.2.length = p.2.length →
        (neighbors cw q.1).length ≤ (neighbors cw p.1).length) := by
  cases hcase : d.filter (fun p => !hasKey a p.1) with
  | nil => exact absurd hcase hne
  | cons p0 rest =>
    have hp0mem : p0 ∈ d.filter (fun p => !hasKey a p.1) := by
      rw [hcase]
      exact List.mem_cons_self p0 rest
    have hp0 : p0.2.length < 10000 := hsmall p0 hp0mem
    have hrest : ∀ q ∈ rest, q.2.length < 10000 := by
      intro q hq
      exact hsmall q (by rw [hcase]; exact List.mem_cons_of_mem p0 hq)
    obtain ⟨k', m', hfold, horig, hle, hmin, hdeg, htie⟩ :=
      selFold_aux cw rest p0.1 p0.2.length hp0 hrest
    have hsel : select_unassigned_variable cw d a = some k' := by
      rw [select_eq_fold, hcase, List.foldl_cons,
        selStep_lt (show p0.2.length < ((none : Option V), (10000 : Nat)).2 from hp0), hfold]
    have hkey : ∀ p, p ∈ d.filter (fun q => !hasKey a q.1) → hasKey a p.1 = false := by
      intro p hp
      have := (List.mem_filter.mp hp).2
      simpa using this
    rcases horig with ⟨h1, h2⟩ | ⟨q, hq, h1, h2⟩
    · refine ⟨p0, List.mem_cons_self p0 rest, h1 ▸ hsel, hkey p0 hp0mem, ?_, ?_⟩
      · intro q hq
        rcases List.mem_cons.mp hq with h | h
        · subst h; omega
        · have := hmin q h; omega
      · intro q hq hql
        rcases List.mem_cons.mp hq with h | h
        · subst h; exact Nat.le_refl _
        · have := htie q h (by omega)
          rw [h1] at this
          exact this
    · have hqmem : q ∈ d.filter (fun p => !hasKey a p.1) := by
        rw [hcase]
        exact List.mem_cons_of_mem p0 hq
      refine ⟨q, List.mem_cons_of_mem p0 hq, h1 ▸ hsel, hkey q hqmem, ?_, ?_⟩
      · intro r hr
        rcases List.mem_cons.mp hr with h | h
        · subst h; omega
        · have := hmin r h; omega
      · intro r hr hrl
        rcases List.mem_cons.mp hr with h | h
        · subst h
          have := hdeg (by omega)
          rw [h1] at this
          exact this
        · have := htie r h (by omega)
          rw [h1] at this
          exact this

/-- Witness for the amended claim C7: at puzzle B's node-consistent
store (all domains of size 3, far below 10000) the selection succeeds. -/
theorem select_contract_witness :
    dB.filter (fun p => !hasKey ([] : Assign (Fin 5)) p.1) ≠ [] ∧
    (select_unassigned_variable cwB dB []).isSome = true := by
  refine ⟨by decide, ?_⟩
  obtain ⟨p, hp, hsel, _⟩ := select_contract cwB dB [] (by decide) (by decide)
  rw [hsel]
  rfl

theorem bigPool_length : bigPool.length = 10001 := by
  simp [bigPool]

theorem select_single_big (cw : CW Nat) (v : Nat) (ws : List Word)
    (h : ws.length = 10001) :
    select_unassigned_variable cw [(v, ws)] [] = none := by
  rw [select_eq_fold]
  have hf : ([(v, ws)] : Domains Nat).filter (fun p => !hasKey [] p.1) = [(v, ws)] := by
    simp [hasKey]
  rw [hf, List.foldl_cons, List.foldl_nil, selStep_gt (show ((none : Option Nat), (10000 : Nat)).2 < (v, ws).2.length by show (10000 : Nat) < ws.length; omega)]

theorem initialDomains_cwBig : initialDomains cwBig = [(0, bigPool)] := by
  simp only [initialDomains, cwBig, List.map_cons, List.map_nil]

/-- Counterexample to claim C7 as stated: a puzzle with one slot and
10001 pool words.  The slot is unassigned under the empty assignment,
yet `select_unassigned_variable` returns `None` — its scan starts from
the hard-coded bound `min_val_size = 10000` and a domain at least that
big is never selected. -/
theorem select_sentinel_counterexample :
    hasKey ([] : Assign Nat) 0 = false ∧
    cwBig.vars = [0] ∧
    select_unassigned_variable cwBig (initialDomains cwBig) [] = none := by
  refine ⟨rfl, rfl, ?_⟩
  rw [initialDomains_cwBig]
  exact select_single_big cwBig 0 bigPool bigPool_length

/-- Claim C6, amended: when the tentative commit of `w` for slot `var`
is undone after the recursive call fails, the loop continues on the
original assignment (only the entry for `var` is removed) and on the
domain store left behind by the failed recursion — the domain of `var`
is not restored to its pre-assignment set; it is a subset of the
singleton tried (the recursion's own propagation can have emptied it). -/
theorem undo_keeps_sub (cw : CW V) (fuel : Nat) (var : V) (a : Assign V) (w : Word)
    (rest : List Word) (d d2 : Domains V)
    (hmem : w ∈ order_domain_values cw ((consistent cw a d).2) a var)
    (hfail : backtrack cw fuel (insertA a var w)
      (setD ((consistent cw a d).2) var [w]) = (none, d2)) :
    tryValues (backtrack cw fuel) cw var a (w :: rest) d =
      tryValues (backtrack cw fuel) cw var a rest d2 ∧
    ∀ u ∈ lookupD d2 var, u = w := by
  constructor
  · rw [tryValues, if_pos hmem, hfail]
  · intro u hu
    have h1 : lookupD d2 var ⊆ lookupD (setD ((consistent cw a d).2) var [w]) var := by
      have hsub := backtrack_sub cw fuel (insertA a var w)
        (setD ((consistent cw a d).2) var [w]) var
      rw [hfail] at hsub
      exact hsub
    have h2 := lookupD_setD_self_sub ((consistent cw a d).2) var [w] (h1 hu)
    simpa using h2

/-- Counterexample to claim C6 as stated: in `solve cwC`'s very first
commit (slot 4, word `baa`), the failed recursion leaves slot 4's
domain empty, not the singleton that was tried. -/
theorem domain_undo_counterexample :
    select_unassigned_variable cwC dC [] = some 4 ∧
    order_domain_values cwC dC [] 4 = [['b','a','a'], ['a','b','b']] ∧
    ['b','a','a'] ∈ order_domain_values cwC ((consistent cwC [] dC).2) [] 4 ∧
    (backtrack cwC 5 (insertA [] 4 ['b','a','a'])
      (setD ((consistent cwC [] dC).2) 4 [['b','a','a']])).1 = none ∧
    lookupD (backtrack cwC 5 (insertA [] 4 ['b','a','a'])
      (setD ((consistent cwC [] dC).2) 4 [['b','a','a']])).2 4 = [] ∧
    lookupD (backtrack cwC 5 (insertA [] 4 ['b','a','a'])
      (setD ((consistent cwC [] dC).2) 4 [['b','a','a']])).2 4 ≠ [['b','a','a']] := by
  refine ⟨by decide, by decide, by decide, by decide, by decide, by decide⟩

/-- Witness for the amended claim C6, at the same first commit of
`solve cwC`. -/
theorem undo_keeps_sub_witness :
    ['b','a','a'] ∈ order_domain_values cwC ((consistent cwC [] dC).2) [] 4 ∧
    tryValues (backtrack cwC 5) cwC 4 [] [['b','a','a'], ['a','b','b']] dC =
      tryValues (backtrack cwC 5) cwC 4 [] [['a','b','b']]
        (backtrack cwC 5 (insertA [] 4 ['b','a','a'])
          (setD ((consistent cwC [] dC).2) 4 [['b','a','a']])).2 :=
  ⟨by decide,
    (undo_keeps_sub cwC 5 4 [] ['b','a','a'] [['a','b','b']] dC _
      (by decide) (by decide)).1⟩

/-- Claim C1 evaluated at the failing input (code bug): `solve cwA`
returns a complete assignment that violates the overlap invariant —
slot 1 and slot 3 cross (index 0 of slot 1 against index 1 of slot 3),
yet the returned words disagree there. -/
theorem solve_unsound_eval :
    solve cwA = some [(2, ['a','a']), (1, ['a','a']), (3, ['a','b','a']),
      (0, ['a','b','b']), (4, ['b','a','b'])] ∧
    (List.map Prod.fst [((2 : Fin 5), (['a','a'] : Word)), (1, ['a','a']), (3, ['a','b','a']),
      (0, ['a','b','b']), (4, ['b','a','b'])]).length = cwA.vars.length ∧
    cwA.overlaps 1 3 = some (0, 1) ∧
    lookupA [((2 : Fin 5), (['a','a'] : Word)), (1, ['a','a']), (3, ['a','b','a']),
      (0, ['a','b','b']), (4, ['b','a','b'])] 1 = some ['a','a'] ∧
    lookupA [((2 : Fin 5), (['a','a'] : Word)), (1, ['a','a']), (3, ['a','b','a']),
      (0, ['a','b','b']), (4, ['b','a','b'])] 3 = some ['a','b','a'] ∧
    charAt ['a','a'] 0 ≠ charAt ['a','b','a'] 1 ∧
    okOverlaps cwA [(2, ['a','a']), (1, ['a','a']), (3, ['a','b','a']),
      (0, ['a','b','b']), (4, ['b','a','b'])] = false := by
  refine ⟨by decide, by decide, by decide, by decide, by decide, by decide, by decide⟩

/-- Claim C2 evaluated at the failing input (code bug): puzzle B has
exactly one solution (its crossing slots even hold pairwise distinct
words), the pool holds that solution's words plus decoys, yet
`solve cwB` returns `None`. -/
theorem solve_incomplete_eval :
    solutions cwB = [[(0, ['c','b','b']), (1, ['a','c']), (2, ['a','c']),
      (3, ['b','a','a']), (4, ['b','c','c'])]] ∧
    solve cwB = none := by
  refine ⟨by decide, by decide⟩

end CrosswordCSP

namespace CrosswordCSP

variable {V : Type} [DecidableEq V]

theorem hasPartner_iff (ys : List Word) (xc yc : Nat) (w : Word) :
    hasPartner ys xc yc w = true ↔ ∃ w' ∈ ys, w ≠ w' ∧ charAt w xc = charAt w' yc := by
  simp [hasPartner, List.any_eq_true]

theorem revise_lookup_filter {cw : CW V} {x y : V} {xc yc : Nat} (d : Domains V)
    (hov : cw.overlaps x y = some (xc, yc)) :
    lookupD (revise cw x y d).2 x = (lookupD d x).filter (hasPartner (lookupD d y) xc yc) := by
  rw [revise_some d hov]
  show lookupD (setD d x _) x = _
  by_cases hx : x ∈ d.map Prod.fst
  · exact lookupD_setD_self_of_mem _ hx
  · rw [setD_of_not_mem _ hx, lookupD_eq_nil_of_not_mem hx]
    simp

theorem revise_lookup_ne {cw : CW V} {x y z : V} (d : Domains V) (hz : z ≠ x) :
    lookupD (revise cw x y d).2 z = lookupD d z := by
  cases hov : cw.overlaps x y with
  | none => rw [revise_none d hov]
  | some p =>
    obtain ⟨xc, yc⟩ := p
    rw [revise_some d hov]
    show lookupD (setD d x _) z = _
    exact lookupD_setD_ne d x z _ hz

theorem Supported_mono {d d' : Domains V} {x y : V} {i j : Nat}
    (hx : lookupD d' x ⊆ lookupD d x) (hy : lookupD d' y = lookupD d y)
    (h : Supported d x y i j) : Supported d' x y i j := by
  intro w hw
  obtain ⟨w', hw', hne, hch⟩ := h w (hx hw)
  exact ⟨w', hy ▸ hw', hne, hch⟩

theorem revise_supported {cw : CW V} {x y : V} {i j : Nat} (d : Domains V)
    (hov : cw.overlaps x y = some (i, j)) (hxy : x ≠ y) :
    Supported (revise cw x y d).2 x y i j := by
  intro w hw
  rw [revise_lookup_filter d hov] at hw
  have hp := (List.mem_filter.mp hw).2
  obtain ⟨w', hw', hne, hch⟩ := (hasPartner_iff _ _ _ _).mp hp
  refine ⟨w', ?_, hne, hch⟩
  rw [revise_lookup_ne d (Ne.symm hxy)]
  exact hw'

theorem norev_supported {cw : CW V} {x y : V} {i j : Nat} {d : Domains V}
    (hov : cw.overlaps x y = some (i, j)) (h : (revise cw x y d).1 = false) :
    Supported d x y i j := by
  intro w hw
  rw [revise_some d hov] at h
  simp only [decide_eq_false_iff_not, Nat.not_lt] at h
  have hle := List.length_filter_le (hasPartner (lookupD d y) i j) (lookupD d x)
  have hall := List.filter_length_eq_length.mp (Nat.le_antisymm hle h)
  exact (hasPartner_iff _ _ _ _).mp (hall w hw)

theorem revise_supported_symm {cw : CW V} {x y : V} {i j : Nat} (d : Domains V)
    (hov : cw.overlaps x y = some (i, j)) (hxy : x ≠ y)
    (h : Supported d y x j i) : Supported (revise cw x y d).2 y x j i := by
  intro w' hw'
  rw [revise_lookup_ne d (Ne.symm hxy)] at hw'
  obtain ⟨w, hw, hne, hch⟩ := h w' hw'
  refine ⟨w, ?_, hne, hch⟩
  rw [revise_lookup_filter d hov, List.mem_filter]
  refine ⟨hw, (hasPartner_iff _ _ _ _).mpr ⟨w', hw', Ne.symm hne, hch.symm⟩⟩

theorem mem_neighbors {cw : CW V} {x z : V} :
    z ∈ neighbors cw x ↔ z ∈ cw.vars ∧ z ≠ x ∧ (cw.overlaps z x).isSome := by
  simp [neighbors, List.mem_filter]

theorem mem_pushArcs {cw : CW V} {x y u v : V} {rest : List (V × V)} :
    (u, v) ∈ pushArcs cw x y rest ↔
      (v = x ∧ u ∈ neighbors cw x ∧ u ≠ y) ∨ (u, v) ∈ rest := by
  simp only [pushArcs, List.mem_append, List.mem_reverse, List.mem_map, List.mem_filter]
  constructor
  · rintro (⟨z, ⟨hz1, hz2⟩, heq⟩ | h)
    · obtain ⟨h1, h2⟩ := Prod.mk.injEq .. ▸ heq
      subst h1
      subst h2
      exact Or.inl ⟨rfl, hz1, by simpa using hz2⟩
    · exact Or.inr h
  · rintro (⟨hv, hu, huy⟩ | h)
    · subst hv
      exact Or.inl ⟨u, ⟨hu, by simpa using huy⟩, rfl⟩
    · exact Or.inr h

theorem mem_initStack_default {cw : CW V} {d : Domains V} {x y : V} :
    (x, y) ∈ initStack cw none d ↔ x ∈ d.map Prod.fst ∧ y ∈ neighbors cw x := by
  simp only [initStack, List.mem_reverse, List.mem_flatMap, List.mem_map]
  constructor
  · rintro ⟨z, hz, w, hw, heq⟩
    obtain ⟨h1, h2⟩ := Prod.mk.injEq .. ▸ heq
    subst h1
    subst h2
    exact ⟨hz, hw⟩
  · rintro ⟨hx, hy⟩
    exact ⟨x, hx, y, hy, rfl⟩

theorem reaches_inv (cw : CW V)
    (hsym : ∀ x y i j, cw.overlaps x y = some (i, j) → cw.overlaps y x = some (j, i))
    (hdist : ∀ x y p, cw.overlaps x y = some p → x ≠ y)
    (hvarfst : ∀ x y p, cw.overlaps x y = some p → x ∈ cw.vars)
    {s : List (V × V)} {d : Domains V} {s' : List (V × V)} {d' : Domains V}
    (hre : Reaches cw s d s' d')
    (hinv : ∀ x y i j, cw.overlaps x y = some (i, j) → (x, y) ∉ s → Supported d x y i j) :
    ∀ x y i j, cw.overlaps x y = some (i, j) → (x, y) ∉ s' → Supported d' x y i j := by
  induction hre with
  | refl s d => exact hinv
  | @norev a b rest s2 dd dd' hr next ih =>
    apply ih
    intro x y i j hov hnotin
    rw [revise_false_eq hr]
    by_cases hxy : (x, y) = (a, b)
    · obtain ⟨h1, h2⟩ := Prod.mk.injEq .. ▸ hxy
      subst h1
      subst h2
      exact norev_supported hov hr
    · exact hinv x y i j hov (by
        intro hmem
        rcases List.mem_cons.mp hmem with h | h
        · exact hxy h
        · exact hnotin h)
  | @rev a b rest s2 dd dd' hr hne next ih =>
    apply ih
    intro x y i j hov hnotin
    have hovab : ∃ ia ja, cw.overlaps a b = some (ia, ja) := by
      cases hab : cw.overlaps a b with
      | none => rw [revise_none dd hab] at hr; simp at hr
      | some p =>
        obtain ⟨ia, ja⟩ := p
        exact ⟨ia, ja, rfl⟩
    obtain ⟨ia, ja, hab⟩ := hovab
    have hab_ne : a ≠ b := hdist a b (ia, ja) hab
    by_cases hxy : (x, y) = (a, b)
    · obtain ⟨h1, h2⟩ := Prod.mk.injEq .. ▸ hxy
      rw [h1, h2] at hov ⊢
      exact revise_supported dd hov hab_ne
    · by_cases hy : y = a
      · by_cases hx : x = b
        · -- the arc (b, a) back into the revised slot: symmetry of supports
          have hov' : cw.overlaps b a = some (i, j) := by rw [← hx, ← hy]; exact hov
          have hba : cw.overlaps a b = some (j, i) := hsym b a i j hov'
          have hbnotin : (b, a) ∉ (a, b) :: rest := by
            intro hmem
            rcases List.mem_cons.mp hmem with h | h
            · exact hab_ne ((Prod.mk.injEq .. ▸ h).2)
            · exact hnotin (by rw [hx, hy]; exact mem_pushArcs.mpr (Or.inr h))
          have hs : Supported dd b a i j := hinv b a i j hov' hbnotin
          have hconc := revise_supported_symm dd hba hab_ne hs
          rw [hx, hy]
          exact hconc
        · -- a relevant arc into the revised slot, other than the popped one:
          -- it was re-enqueued, contradicting that it left the worklist
          exfalso
          apply hnotin
          have hova : cw.overlaps x a = some (i, j) := hy ▸ hov
          refine mem_pushArcs.mpr (Or.inl ⟨hy, ?_, hx⟩)
          refine mem_neighbors.mpr ⟨hvarfst x a (i, j) hova, hdist x a (i, j) hova, ?_⟩
          rw [hova]
          rfl
      · -- an arc not reading the revised slot: supports carry over
        have hnotins : (x, y) ∉ (a, b) :: rest := by
          intro hmem
          rcases List.mem_cons.mp hmem with h | h
          · exact hxy h
          · exact hnotin (mem_pushArcs.mpr (Or.inr h))
        refine Supported_mono ?_ (revise_lookup_ne dd hy) (hinv x y i j hov hnotins)
        exact revise_lookup_sub cw a b x dd

/-- Claim C4: when `ac3` is run with the default worklist and returns
`True`, the resulting domain store is arc consistent: for every ordered
pair of slots with a defined overlap, every remaining word of the first
slot has a distinct partner in the second slot's domain agreeing on the
shared character; equivalently, the store is a fixed point — no further
`revise` call changes anything.  The hypotheses record facts the puzzle
model guarantees: overlaps relate distinct slots of the puzzle
symmetrically (with the index pair swapped), and every slot has a domain
entry. -/
theorem ac3_closure (cw : CW V) (d d' : Domains V)
    (hsym : ∀ x y i j, cw.overlaps x y = some (i, j) → cw.overlaps y x = some (j, i))
    (hdist : ∀ x y p, cw.overlaps x y = some p → x ≠ y)
    (hvarfst : ∀ x y p, cw.overlaps x y = some p → x ∈ cw.vars)
    (hkeysd : ∀ x y p, cw.overlaps x y = some p → x ∈ d.map Prod.fst)
    (h : ac3 cw none d = (true, d')) :
    (∀ x y i j, cw.overlaps x y = some (i, j) → Supported d' x y i j) ∧
    (∀ x y, revise cw x y d' = (false, d')) := by
  have hre : Reaches cw (initStack cw none d) d [] d' :=
    ac3Run_true_reaches cw (ac3_eq_run cw none d ▸ h)
  have hinit : ∀ x y i j, cw.overlaps x y = some (i, j) →
      (x, y) ∉ initStack cw none d → Supported d x y i j := by
    intro x y i j hov hnot
    exfalso
    apply hnot
    refine mem_initStack_default.mpr ⟨hkeysd x y (i, j) hov, ?_⟩
    refine mem_neighbors.mpr ⟨?_, ?_, ?_⟩
    · exact hvarfst y x (j, i) (hsym x y i j hov)
    · exact (hdist x y (i, j) hov).symm
    · rw [hsym x y i j hov]
      rfl
  have hfix := reaches_inv cw hsym hdist hvarfst hre hinit
  have hsupp : ∀ x y i j, cw.overlaps x y = some (i, j) → Supported d' x y i j :=
    fun x y i j hov => hfix x y i j hov (List.not_mem_nil _)
  refine ⟨hsupp, fun x y => ?_⟩
  cases hov : cw.overlaps x y with
  | none => exact revise_none d' hov
  | some p =>
    obtain ⟨i, j⟩ := p
    have hall : ∀ w ∈ lookupD d' x, hasPartner (lookupD d' y) i j w = true := by
      intro w hw
      exact (hasPartner_iff _ _ _ _).mpr (hsupp x y i j hov w hw)
    have hfe : (lookupD d' x).filter (hasPartner (lookupD d' y) i j) = lookupD d' x :=
      List.filter_eq_self.mpr hall
    rw [revise_some d' hov, hfe, setD_lookupD_self]
    simp

end CrosswordCSP

namespace CrosswordCSP

/-- Witness for claim C4: the closure applied to puzzle C's first
propagation; the resulting store is a `revise` fixed point at the
crossing of slots 0 and 3, and supports every remaining word there. -/
theorem ac3_closure_witness :
    ac3 cwC none (enforce_node_consistency cwC (initialDomains cwC)) = (true, dC) ∧
    revise cwC 0 3 dC = (false, dC) ∧ Supported dC 0 3 1 0 := by
  have hb : ∀ x y : Fin 5,
      ((cwC.overlaps x y).all (fun p => decide (cwC.overlaps y x = some (p.2, p.1)))) = true := by
    decide
  have hsym : ∀ (x y : Fin 5) (i j : Nat),
      cwC.overlaps x y = some (i, j) → cwC.overlaps y x = some (j, i) := by
    intro x y i j h
    have hx := hb x y
    rw [h] at hx
    exact of_decide_eq_true hx
  have hd : ∀ x y : Fin 5, (cwC.overlaps x y).isSome = true → x ≠ y := by decide
  have hdist : ∀ (x y : Fin 5) (p : Nat × Nat), cwC.overlaps x y = some p → x ≠ y := by
    intro x y p h
    exact hd x y (by rw [h]; rfl)
  have hv : ∀ x y : Fin 5, (cwC.overlaps x y).isSome = true → x ∈ cwC.vars := by decide
  have hvarfst : ∀ (x y : Fin 5) (p : Nat × Nat), cwC.overlaps x y = some p → x ∈ cwC.vars := by
    intro x y p h
    exact hv x y (by rw [h]; rfl)
  have hk : ∀ x y : Fin 5, (cwC.overlaps x y).isSome = true →
      x ∈ (enforce_node_consistency cwC (initialDomains cwC)).map Prod.fst := by decide
  have hkeysd : ∀ (x y : Fin 5) (p : Nat × Nat), cwC.overlaps x y = some p →
      x ∈ (enforce_node_consistency cwC (initialDomains cwC)).map Prod.fst := by
    intro x y p h
    exact hk x y (by rw [h]; rfl)
  have hrun : ac3 cwC none (enforce_node_consistency cwC (initialDomains cwC)) = (true, dC) := by
    decide
  have hmain := ac3_closure cwC (enforce_node_consistency cwC (initialDomains cwC)) dC
    hsym hdist hvarfst hkeysd hrun
  exact ⟨hrun, hmain.2 0 3, hmain.1 0 3 1 0 (by decide)⟩

end CrosswordCSP
